import Mathlib

/-!
Verification of the tool-calling agent in `main.py`.

The development shallowly embeds the two tool executors (`web_search`,
`read_page`) and the `/chat` orchestration loop. External collaborators
(the HTTP stack, the OpenAI model backend, `requests`, `json.loads`,
BeautifulSoup's HTML-to-text extraction) are modelled as oracles supplied
through an `Env` structure / a model script `Nat → ModelMessage`; everything
the repository's own code does with their answers is embedded concretely.
Python strings are modelled as `List Char`.
-/

namespace Agent

/-- Python line-boundary characters recognised by `str.splitlines`
(`\r\n` is additionally treated as a single boundary by the split function). -/
def isLineBreak (c : Char) : Bool :=
  c = '\n' || c = '\r' || c = '\x0b' || c = '\x0c' ||
  c = '\x1c' || c = '\x1d' || c = '\x1e' || c = '\x85' ||
  c.toNat = 0x2028 || c.toNat = 0x2029

/-- Python whitespace characters, the set stripped by `str.strip()`
(ASCII whitespace, the line-boundary set, and the Unicode space separators). -/
def isPySpace (c : Char) : Bool :=
  c = ' ' || c = '\t' || isLineBreak c || c = '\x1f' ||
  c = '\xa0' || c.toNat = 0x1680 ||
  (0x2000 ≤ c.toNat && c.toNat ≤ 0x200a) ||
  c.toNat = 0x202f || c.toNat = 0x205f || c.toNat = 0x3000

/-- `text.splitlines()` worker: accumulates the current line (reversed) in `cur`.
A trailing line terminator produces no final empty line, matching Python. -/
def splitlinesGo : List Char → List Char → List (List Char)
  | [], cur => if cur = [] then [] else [cur.reverse]
  | c :: rest, cur =>
    if isLineBreak c then
      cur.reverse ::
        (match rest with
         | [] => []
         | c2 :: rest2 =>
           if c == '\r' && c2 == '\n' then splitlinesGo rest2 []
           else splitlinesGo (c2 :: rest2) [])
    else splitlinesGo rest (c :: cur)

/-- Python `text.splitlines()` on the char-list model. -/
def pySplitlines (s : List Char) : List (List Char) :=
  splitlinesGo s []

/-- `line.split("  ")` worker: splits on every occurrence of two consecutive
spaces, keeping empty pieces, exactly as Python `str.split` with an explicit
separator does. -/
def splitDoubleSpaceGo : List Char → List Char → List (List Char)
  | [], cur => [cur.reverse]
  | ' ' :: ' ' :: rest, cur => cur.reverse :: splitDoubleSpaceGo rest []
  | c :: rest, cur => splitDoubleSpaceGo rest (c :: cur)

/-- Python `line.split("  ")` on the char-list model. -/
def splitDoubleSpace (s : List Char) : List (List Char) :=
  splitDoubleSpaceGo s []

/-- Python `s.strip()`: drop whitespace from both ends. -/
def pyStrip (s : List Char) : List Char :=
  ((s.dropWhile isPySpace).reverse.dropWhile isPySpace).reverse

/-- Python `' '.join(pieces)`. -/
def joinWithSpace : List (List Char) → List Char
  | [] => []
  | [x] => x
  | x :: xs => x ++ ' ' :: joinWithSpace xs

/-- The whitespace clean-up of `read_page` (`main.py` lines 83-85):
strip each line, split lines at double spaces into phrases, strip each
phrase, and join the non-empty chunks with single spaces. -/
def normalizeText (s : List Char) : List Char :=
  let lines := (pySplitlines s).map pyStrip
  let chunks := (lines.map (fun line => (splitDoubleSpace line).map pyStrip)).flatten
  joinWithSpace (chunks.filter (fun c => !c.isEmpty))

/-- The truncation marker appended by `read_page` when the text is cut. -/
def truncMarker : List Char := "... (truncated)".data

/-- The character budget of `read_page` (`max_chars = 5000`). -/
def maxChars : Nat := 5000

/-- Truncation step of `read_page` (`main.py` lines 88-90). -/
def limitText (text : List Char) : List Char :=
  if text.length > maxChars then text.take maxChars ++ truncMarker else text

/-- Outcome of one outbound network interaction, as distinguished by the
`except` clauses of `main.py`: success carries what the library call handed
back to the repository's code (for `web_search` the decoded response body,
for `read_page` the text extracted by BeautifulSoup's `get_text` after
decomposing script/style/nav/footer/header elements). -/
inductive NetOutcome (α : Type) where
  | success (payload : α)
  | timeout
  | httpError (status : Nat)
  | requestException (msg : String)
  | otherError (msg : String)
deriving Repr, DecidableEq

/-- Result dictionary returned by `web_search`: either the backend's JSON
body forwarded verbatim (modelled opaquely) or `{error, query}`. -/
inductive SearchResult where
  | ok (payload : String)
  | err (error : String) (query : String)
deriving Repr, DecidableEq

/-- Success dictionary `{url, text, length}` returned by `read_page`. -/
structure PageSuccess where
  url : String
  text : List Char
  length : Nat
deriving Repr, DecidableEq

/-- Result dictionary returned by `read_page`. -/
inductive PageResult where
  | ok (r : PageSuccess)
  | err (error : String) (url : String)
deriving Repr, DecidableEq

/-- External collaborators of the code under verification. `jsonLoads` is
`json.loads` restricted to the string-to-string dictionaries the tools
consume (an `.error` means the Python call raises `JSONDecodeError`);
`searchNet q` is the combined outcome of the `requests.post` + `.json()`
in `web_search`; `fetchNet u` the combined outcome of `requests.get` +
HTML parsing + `get_text` in `read_page`. -/
structure Env where
  jsonLoads : String → Except String (List (String × String))
  searchNet : String → NetOutcome String
  fetchNet : String → NetOutcome (List Char)

/-- `web_search(query)` from `main.py` lines 32-60: forwards the backend's
response on success and converts every failure into an `{error, query}`
dictionary. -/
def web_search (env : Env) (query : String) : SearchResult :=
  match env.searchNet query with
  | .success p => .ok p
  | .timeout => .err "Search request timed out" query
  | .httpError s => .err ("HTTP error: " ++ toString s) query
  | .requestException m => .err ("Request failed: " ++ m) query
  | .otherError m => .err ("Unexpected error: " ++ m) query

/-- `read_page(url)` from `main.py` lines 63-109: on success normalizes the
extracted text, truncates it to the budget, and returns `{url, text, length}`;
every failure becomes an `{error, url}` dictionary. -/
def read_page (env : Env) (url : String) : PageResult :=
  match env.fetchNet url with
  | .success raw =>
      let text := limitText (normalizeText raw)
      .ok { url := url, text := text, length := text.length }
  | .timeout => .err "Page request timed out" url
  | .httpError s => .err ("HTTP error: " ++ toString s) url
  | .requestException m => .err ("Request failed: " ++ m) url
  | .otherError m => .err ("Unexpected error: " ++ m) url

/-- One entry of `message.tool_calls` as the loop reads it: `tc.id`,
`tc.function.name`, and the raw `tc.function.arguments` JSON text. -/
structure ToolCall where
  id : String
  name : String
  arguments : String
deriving Repr, DecidableEq

/-- The assistant message of one model response
(`response.choices[0].message`): `content` is `None` or a string, and
`tool_calls` is the request list (the empty list models both `None` and
`[]`, which Python's `if message.tool_calls:` treats alike). -/
structure ModelMessage where
  content : Option String
  tool_calls : List ToolCall
deriving Repr, DecidableEq

/-- The three dictionary shapes assigned to `tool_result` in the dispatch
of `main.py` lines 222-227: a `web_search` dict, a `read_page` dict, or the
`{"error": "Unknown tool: <name>"}` dict. -/
inductive ToolResult where
  | ofSearch (r : SearchResult)
  | ofPage (r : PageResult)
  | unknownTool (error : String)
deriving Repr, DecidableEq

/-- One entry of the `messages` history list: the user seed dict, the
assistant dict appended at lines 198-211, or the tool dict appended at
lines 232-237 (whose `content` is the serialized `ToolResult`). -/
inductive HistMsg where
  | user (content : String)
  | assistant (content : String) (tool_calls : List ToolCall)
  | tool (tool_call_id : String) (name : String) (content : ToolResult)
deriving Repr, DecidableEq

/-- Python exceptions that escape the body of `chat` uncaught:
`json.JSONDecodeError` from `json.loads` at line 219, `KeyError` from
`args["query"]` / `args["url"]` at lines 223/225. -/
inductive ChatError where
  | jsonDecodeError (msg : String)
  | keyError (key : String)
deriving Repr, DecidableEq

/-- The response dictionary returned by `chat`: `content` may be `None`
(the success path returns `message.content` unmodified) and `tool_calls`
is `None` on every return path. -/
structure ChatReturn where
  content : Option String
  tool_calls : Option (List ToolCall)
deriving Repr, DecidableEq

/-- Observable outcome of a completed `chat` invocation: the returned
dictionary, the final `messages` history, and how many times
`client.chat.completions.create` was called (one per loop iteration). -/
structure ChatOutcome where
  ret : ChatReturn
  msgs : List HistMsg
  modelCalls : Nat
deriving Repr, DecidableEq

/-- Python truthiness of `x or d` for an optional string `x`:
`None` and `""` both fall through to `d`. -/
def pyOr (x : Option String) (d : String) : String :=
  match x with
  | none => d
  | some s => if s = "" then d else s

/-- The fallback answer of the budget-exhausted return (line 251). -/
def fallbackMessage : String :=
  "I\u0027ve reached the maximum number of tool calls. Please try rephrasing your question."

/-- The tool routing of `main.py` lines 222-227, applied to a parsed
argument dictionary: `web_search` and `read_page` are the two registered
names; any other name yields the `Unknown tool` error dictionary. A missing
required key raises `KeyError` (modelled as `.error`). -/
def routeTool (env : Env) (name : String) (args : List (String × String)) :
    Except ChatError ToolResult :=
  if name = "web_search" then
    match args.lookup "query" with
    | some q => .ok (.ofSearch (web_search env q))
    | none => .error (.keyError "query")
  else if name = "read_page" then
    match args.lookup "url" with
    | some u => .ok (.ofPage (read_page env u))
    | none => .error (.keyError "url")
  else .ok (.unknownTool ("Unknown tool: " ++ name))

/-- The per-request body of the `for tool_call in message.tool_calls` loop
(lines 214-237): parse the arguments with `json.loads` (a parse failure
raises), route to the tool, and append one tool-role message carrying the
request's id, name and result. -/
def processToolCalls (env : Env) :
    List ToolCall → List HistMsg → Except ChatError (List HistMsg)
  | [], msgs => .ok msgs
  | tc :: rest, msgs =>
    match env.jsonLoads tc.arguments with
    | .error e => .error (.jsonDecodeError e)
    | .ok args =>
      match routeTool env tc.name args with
      | .error e => .error e
      | .ok result =>
          processToolCalls env rest (msgs ++ [.tool tc.id tc.name result])

/-- The `for turn in range(max_turns)` loop of `chat` (lines 179-245) plus
the post-loop budget return (lines 250-253). `fuel` is the number of
iterations left, `turn` the next zero-based turn index, `lastMsg` the
Python variable `message` left over from the previous iteration (`none`
while still unbound), `calls` the number of model calls made so far. On
each iteration the model script is consulted; a response without tool
requests returns `{content: message.content, tool_calls: None}`; otherwise
the assistant message (content `message.content or ""`) is appended once
with all its tool calls, each call is processed in order, and the loop
continues. After the last iteration the budget path returns
`message.content or fallbackMessage`. -/
def chatLoop (env : Env) (model : Nat → ModelMessage) :
    Nat → Nat → List HistMsg → Option ModelMessage → Nat →
    Except ChatError ChatOutcome
  | 0, _, msgs, lastMsg, calls =>
    match lastMsg with
    | none => .ok { ret := { content := some fallbackMessage, tool_calls := none },
                    msgs := msgs, modelCalls := calls }
    | some m => .ok { ret := { content := some (pyOr m.content fallbackMessage),
                               tool_calls := none },
                      msgs := msgs, modelCalls := calls }
  | fuel + 1, turn, msgs, _, calls =>
    let m := model turn
    if m.tool_calls.isEmpty then
      .ok { ret := { content := m.content, tool_calls := none },
            msgs := msgs, modelCalls := calls + 1 }
    else
      match processToolCalls env m.tool_calls
          (msgs ++ [.assistant (pyOr m.content "") m.tool_calls]) with
      | .error e => .error e
      | .ok msgs2 => chatLoop env model fuel (turn + 1) msgs2 (some m) (calls + 1)

/-- `max_turns = 10` (line 177). -/
def maxTurns : Nat := 10

/-- The `/chat` handler body (lines 170-253): seed the conversation with
the user message and run the loop for `max_turns` turns. The result is
`.error` exactly when the Python function lets an exception propagate.
(With `max_turns = 10` the zero-iteration unbound-`message` budget case is
unreachable; `chatLoop` gives it the fallback content.) -/
def chat (env : Env) (model : Nat → ModelMessage) (user_message : String) :
    Except ChatError ChatOutcome :=
  chatLoop env model maxTurns 0 [.user user_message] none 0

/-- A tool call whose processing step cannot raise: its arguments parse
under `env.jsonLoads` and, when it addresses a registered tool, the parsed
dictionary holds that tool's required key. -/
def toolCallOk (env : Env) (tc : ToolCall) : Bool :=
  match env.jsonLoads tc.arguments with
  | .error _ => false
  | .ok args =>
    (tc.name != "web_search" || (args.lookup "query").isSome) &&
    (tc.name != "read_page" || (args.lookup "url").isSome)

/-- The conversation block one tool-requesting turn appends: the assistant
message with all `N` requests, immediately followed by one tool message per
request, in request order, carrying the matching `tool_call_id`. -/
def toolBlock (c : String) (tcs : List ToolCall) (rs : List ToolResult) :
    List HistMsg :=
  HistMsg.assistant c tcs ::
    (tcs.zip rs).map (fun p => HistMsg.tool p.1.id p.1.name p.2)

/-- The `message` variable visible to the budget-exhausted return after the
loop: the previous response `m` when no further iteration ran, else the
response of the final iteration. -/
def lastContent (model : Nat → ModelMessage) (m : ModelMessage)
    (turn fuel : Nat) : Option String :=
  if fuel = 0 then m.content else (model (turn + fuel - 1)).content

/-! ### Concrete instantiations used by witnesses and counterexamples -/

/-- Environment whose every outbound call fails: `json.loads` raises a
decode error and both network calls time out. -/
def badEnv : Env :=
  { jsonLoads := fun _ => .error "Expecting value: line 1 column 1 (char 0)",
    searchNet := fun _ => .timeout,
    fetchNet := fun _ => .timeout }

/-- Model script that always requests `web_search` with a malformed
arguments payload. -/
def badModel : Nat → ModelMessage := fun _ =>
  { content := some "",
    tool_calls := [{ id := "call_1", name := "web_search",
                     arguments := "not json" }] }

/-- Well-behaved environment: arguments parse to a dictionary holding both
required keys, the search backend answers, and pages fetch successfully. -/
def envW : Env :=
  { jsonLoads := fun s => .ok [("query", s), ("url", s)],
    searchNet := fun _ => .success "results",
    fetchNet := fun _ => .success "  hello \n world  foo ".data }

/-- Model script: one `web_search` request on turn 1, a plain answer on
turn 2. -/
def modelW : Nat → ModelMessage := fun t =>
  if t = 0 then
    { content := some "",
      tool_calls := [{ id := "call_1", name := "web_search",
                       arguments := "weather" }] }
  else { content := some "answer", tool_calls := [] }

/-- Model script that requests a tool on every turn, never answering. -/
def modelLoop : Nat → ModelMessage := fun _ =>
  { content := none,
    tool_calls := [{ id := "c1", name := "web_search", arguments := "q" }] }

/-- Model script that answers immediately with no tool requests and no
content. -/
def modelSilent : Nat → ModelMessage := fun _ =>
  { content := none, tool_calls := [] }

/-- Environment for the oversized-page witness: the extracted text is 5001
copies of a letter, which normalization leaves unchanged. -/
def envBig : Env :=
  { jsonLoads := fun _ => .error "unused",
    searchNet := fun _ => .timeout,
    fetchNet := fun _ => .success (List.replicate 5001 'a') }

/-- The `tool_call_id` key of a history entry (`none` for non-tool roles). -/
def histToolCallId : HistMsg → Option String
  | .tool tid _ _ => some tid
  | _ => none

/-- The `name` key of a tool-role history entry (`none` for other roles). -/
def histToolName : HistMsg → Option String
  | .tool _ n _ => some n
  | _ => none

/-! ### Tool-executor lemmas -/

theorem truncMarker_length : truncMarker.length = 15 := by decide

theorem limitText_length (t : List Char) :
    (limitText t).length ≤ maxChars + truncMarker.length := by
  unfold limitText
  split
  · simp only [List.length_append, List.length_take]
    omega
  · omega

/-- C6: `web_search` and `read_page` never propagate an exception: every
network/transport/parsing failure becomes a structured error result whose
message is human-readable and which echoes the original input (the query
for `web_search`, the url for `read_page`); under a timeout the message
ends with (hence contains) "timed out". -/
theorem spec_C6 (env : Env) (q u : String) :
    (env.searchNet q = .timeout →
      web_search env q = .err "Search request timed out" q ∧
      ∃ pre, pre ++ "timed out".data = "Search request timed out".data) ∧
    (env.fetchNet u = .timeout →
      read_page env u = .err "Page request timed out" u ∧
      ∃ pre, pre ++ "timed out".data = "Page request timed out".data) ∧
    (∀ s, env.searchNet q = .httpError s →
      web_search env q = .err ("HTTP error: " ++ toString s) q) ∧
    (∀ s, env.fetchNet u = .httpError s →
      read_page env u = .err ("HTTP error: " ++ toString s) u) ∧
    (∀ m, env.searchNet q = .requestException m →
      web_search env q = .err ("Request failed: " ++ m) q) ∧
    (∀ m, env.fetchNet u = .requestException m →
      read_page env u = .err ("Request failed: " ++ m) u) ∧
    (∀ m, env.searchNet q = .otherError m →
      web_search env q = .err ("Unexpected error: " ++ m) q) ∧
    (∀ m, env.fetchNet u = .otherError m →
      read_page env u = .err ("Unexpected error: " ++ m) u) ∧
    ((∃ p, web_search env q = .ok p) ∨ (∃ msg, web_search env q = .err msg q)) ∧
    ((∃ r, read_page env u = .ok r) ∨ (∃ msg, read_page env u = .err msg u)) := by
  refine ⟨?_, ?_, ?_, ?_, ?_, ?_, ?_, ?_, ?_, ?_⟩
  · intro h
    exact ⟨by simp [web_search, h], "Search request ".data, by decide⟩
  · intro h
    exact ⟨by simp [read_page, h], "Page request ".data, by decide⟩
  · intro s h; simp [web_search, h]
  · intro s h; simp [read_page, h]
  · intro m h; simp [web_search, h]
  · intro m h; simp [read_page, h]
  · intro m h; simp [web_search, h]
  · intro m h; simp [read_page, h]
  · cases h : env.searchNet q <;> simp [web_search, h]
  · cases h : env.fetchNet u <;> simp [read_page, h]

/-- C7: when the whitespace-normalized extracted text exceeds the 5000
character budget, `read_page` succeeds with text of length exactly
`5000 + |marker|` (hence at most that) ending in the truncation marker;
when it is within the budget the normalized text is returned unmodified,
with no marker appended. -/
theorem spec_C7 (env : Env) (url : String) (raw : List Char)
    (hf : env.fetchNet url = .success raw) :
    (maxChars < (normalizeText raw).length →
      ∃ r, read_page env url = .ok r ∧
        r.text.length ≤ maxChars + truncMarker.length ∧
        r.text.length = maxChars + truncMarker.length ∧
        ∃ pre, pre ++ truncMarker = r.text) ∧
    ((normalizeText raw).length ≤ maxChars →
      ∃ r, read_page env url = .ok r ∧ r.text = normalizeText raw) := by
  constructor
  · intro hlong
    refine ⟨{ url := url, text := limitText (normalizeText raw),
              length := (limitText (normalizeText raw)).length },
            by simp [read_page, hf], ?_⟩
    have hl : limitText (normalizeText raw) =
        (normalizeText raw).take maxChars ++ truncMarker := by
      unfold limitText
      simp [hlong]
    rw [hl]
    have htake : ((normalizeText raw).take maxChars).length = maxChars := by
      simp [List.length_take]
      omega
    refine ⟨by simp [htake], by simp [htake], _, rfl⟩
  · intro hshort
    refine ⟨{ url := url, text := limitText (normalizeText raw),
              length := (limitText (normalizeText raw)).length },
            by simp [read_page, hf], ?_⟩
    unfold limitText
    have : ¬ ((normalizeText raw).length > maxChars) := by omega
    simp [this]

/-- C8: every success result of `read_page` has its `length` field equal to
the character length of its `text` field, and that length is at most
`5000` plus the length of the truncation marker. -/
theorem spec_C8 (env : Env) (url : String) (r : PageSuccess)
    (h : read_page env url = .ok r) :
    r.length = r.text.length ∧ r.length ≤ maxChars + truncMarker.length := by
  unfold read_page at h
  cases hf : env.fetchNet url <;> rw [hf] at h <;> simp at h
  have hr : r = { url := url, text := limitText (normalizeText _),
                  length := (limitText (normalizeText _)).length } := h.symm
  subst hr
  exact ⟨rfl, limitText_length _⟩

/-! ### Orchestration-loop lemmas -/

theorem processToolCalls_ok_shape (env : Env) (tcs : List ToolCall) :
    ∀ (msgs msgs2 : List HistMsg),
      processToolCalls env tcs msgs = .ok msgs2 →
      ∃ rs : List ToolResult, rs.length = tcs.length ∧
        msgs2 = msgs ++ (tcs.zip rs).map (fun p => HistMsg.tool p.1.id p.1.name p.2) := by
  induction tcs with
  | nil =>
    intro msgs msgs2 h
    simp only [processToolCalls, Except.ok.injEq] at h
    exact ⟨[], rfl, by simp [h]⟩
  | cons tc rest ih =>
    intro msgs msgs2 h
    simp only [processToolCalls] at h
    cases hj : env.jsonLoads tc.arguments with
    | error e => simp only [hj] at h; cases h
    | ok args =>
      simp only [hj] at h
      cases hr : routeTool env tc.name args with
      | error e => simp only [hr] at h; cases h
      | ok result =>
        simp only [hr] at h
        obtain ⟨rs, hlen, hmsgs⟩ := ih _ _ h
        exact ⟨result :: rs, by simp [hlen], by simp [hmsgs]⟩

theorem routeTool_ok_of_toolCallOk (env : Env) (tc : ToolCall)
    (args : List (String × String))
    (hj : env.jsonLoads tc.arguments = .ok args)
    (h : toolCallOk env tc = true) :
    ∃ result, routeTool env tc.name args = .ok result := by
  unfold toolCallOk at h
  rw [hj] at h
  simp only [Bool.and_eq_true, Bool.or_eq_true, bne_iff_ne, ne_eq,
    decide_eq_true_eq, Option.isSome_iff_exists] at h
  unfold routeTool
  by_cases h1 : tc.name = "web_search"
  · rcases h.1 with hne | ⟨q, hq⟩
    · exact absurd h1 hne
    · simp [h1, hq]
  · by_cases h2 : tc.name = "read_page"
    · rcases h.2 with hne | ⟨v, hv⟩
      · exact absurd h2 hne
      · simp [h1, h2, hv]
    · simp [h1, h2]

theorem processToolCalls_ok_exists (env : Env) (tcs : List ToolCall)
    (h : ∀ tc ∈ tcs, toolCallOk env tc = true) :
    ∀ msgs, ∃ msgs2, processToolCalls env tcs msgs = .ok msgs2 := by
  induction tcs with
  | nil => intro msgs; exact ⟨msgs, rfl⟩
  | cons tc rest ih =>
    intro msgs
    have htc := h tc (by simp)
    have hjok : ∃ args, env.jsonLoads tc.arguments = .ok args := by
      unfold toolCallOk at htc
      cases hj : env.jsonLoads tc.arguments with
      | error e => rw [hj] at htc; cases htc
      | ok args => exact ⟨args, rfl⟩
    obtain ⟨args, hj⟩ := hjok
    obtain ⟨result, hr⟩ := routeTool_ok_of_toolCallOk env tc args hj htc
    obtain ⟨msgs2, hm⟩ :=
      ih (fun t ht => h t (by simp [ht])) (msgs ++ [.tool tc.id tc.name result])
    exact ⟨msgs2, by simp only [processToolCalls, hj, hr, hm]⟩

theorem chatLoop_succ_lastMsg (env : Env) (model : Nat → ModelMessage)
    (fuel turn : Nat) (msgs : List HistMsg)
    (l l2 : Option ModelMessage) (calls : Nat) :
    chatLoop env model (fuel + 1) turn msgs l calls =
    chatLoop env model (fuel + 1) turn msgs l2 calls := rfl

theorem chatLoop_succ_empty (env : Env) (model : Nat → ModelMessage)
    (fuel turn : Nat) (msgs : List HistMsg) (lastMsg : Option ModelMessage)
    (calls : Nat) (h : (model turn).tool_calls = []) :
    chatLoop env model (fuel + 1) turn msgs lastMsg calls =
      .ok { ret := { content := (model turn).content, tool_calls := none },
            msgs := msgs, modelCalls := calls + 1 } := by
  simp only [chatLoop, h, List.isEmpty_nil, if_true]

theorem chatLoop_succ_tools (env : Env) (model : Nat → ModelMessage)
    (fuel turn : Nat) (msgs : List HistMsg) (lastMsg : Option ModelMessage)
    (calls : Nat) (h : (model turn).tool_calls ≠ []) :
    chatLoop env model (fuel + 1) turn msgs lastMsg calls =
      match processToolCalls env (model turn).tool_calls
          (msgs ++ [.assistant (pyOr (model turn).content "")
                      (model turn).tool_calls]) with
      | .error e => .error e
      | .ok msgs2 =>
          chatLoop env model fuel (turn + 1) msgs2 (some (model turn))
            (calls + 1) := by
  have hne : (model turn).tool_calls.isEmpty = false := by
    simpa [List.isEmpty_iff] using h
  simp only [chatLoop, hne, Bool.false_eq_true, if_false]

theorem chatLoop_zero_some (env : Env) (model : Nat → ModelMessage)
    (turn : Nat) (msgs : List HistMsg) (m : ModelMessage) (calls : Nat) :
    chatLoop env model 0 turn msgs (some m) calls =
      .ok { ret := { content := some (pyOr m.content fallbackMessage),
                     tool_calls := none },
            msgs := msgs, modelCalls := calls } := rfl

theorem chatLoop_trace (env : Env) (model : Nat → ModelMessage) :
    ∀ (fuel turn : Nat) (msgs : List HistMsg) (lastMsg : Option ModelMessage)
      (calls : Nat) (out : ChatOutcome),
      chatLoop env model fuel turn msgs lastMsg calls = .ok out →
      ∃ L : List (String × List ToolCall × List ToolResult),
        out.msgs = msgs ++ (L.map (fun b => toolBlock b.1 b.2.1 b.2.2)).flatten ∧
        ∀ b ∈ L, b.2.1 ≠ [] ∧ b.2.2.length = b.2.1.length ∧
          ∃ t, b.1 = pyOr (model t).content "" ∧ b.2.1 = (model t).tool_calls := by
  intro fuel
  induction fuel with
  | zero =>
    intro turn msgs lastMsg calls out h
    cases lastMsg with
    | none =>
      simp only [chatLoop, Except.ok.injEq] at h
      exact ⟨[], by simp [← h], by simp⟩
    | some m =>
      simp only [chatLoop, Except.ok.injEq] at h
      exact ⟨[], by simp [← h], by simp⟩
  | succ fuel ih =>
    intro turn msgs lastMsg calls out h
    by_cases he : (model turn).tool_calls = []
    · rw [chatLoop_succ_empty env model fuel turn msgs lastMsg calls he] at h
      cases h
      exact ⟨[], by simp, by simp⟩
    · rw [chatLoop_succ_tools env model fuel turn msgs lastMsg calls he] at h
      cases hp : processToolCalls env (model turn).tool_calls
          (msgs ++ [.assistant (pyOr (model turn).content "")
                      (model turn).tool_calls]) with
      | error e => simp only [hp] at h; cases h
      | ok msgs2 =>
        simp only [hp] at h
        obtain ⟨L, hm, hb⟩ := ih (turn + 1) msgs2 (some (model turn)) (calls + 1) out h
        obtain ⟨rs, hlen, hmsgs2⟩ := processToolCalls_ok_shape env _ _ _ hp
        refine ⟨(pyOr (model turn).content "", (model turn).tool_calls, rs) :: L,
          ?_, ?_⟩
        · rw [hm, hmsgs2]
          simp [toolBlock]
        · intro b hb2
          rcases List.mem_cons.mp hb2 with rfl | hb2
          · exact ⟨he, hlen, turn, rfl, rfl⟩
          · exact hb b hb2

theorem chatLoop_budget (env : Env) (model : Nat → ModelMessage) :
    ∀ (fuel turn : Nat) (msgs : List HistMsg) (m : ModelMessage) (calls : Nat),
      (∀ t, t < fuel → (model (turn + t)).tool_calls ≠ [] ∧
        ∀ tc ∈ (model (turn + t)).tool_calls, toolCallOk env tc = true) →
      ∃ msgs2, chatLoop env model fuel turn msgs (some m) calls =
        .ok { ret := { content := some (pyOr (lastContent model m turn fuel)
                                          fallbackMessage),
                       tool_calls := none },
              msgs := msgs2, modelCalls := calls + fuel } := by
  intro fuel
  induction fuel with
  | zero =>
    intro turn msgs m calls _
    exact ⟨msgs, by simp [chatLoop_zero_some, lastContent]⟩
  | succ fuel ih =>
    intro turn msgs m calls h
    have h0 := h 0 (Nat.succ_pos fuel)
    rw [Nat.add_zero] at h0
    obtain ⟨msgs2, hp⟩ := processToolCalls_ok_exists env _ h0.2
      (msgs ++ [.assistant (pyOr (model turn).content "") (model turn).tool_calls])
    obtain ⟨msgs3, hrec⟩ := ih (turn + 1) msgs2 (model turn) (calls + 1)
      (fun t ht => by
        have := h (t + 1) (Nat.succ_lt_succ ht)
        rwa [show turn + (t + 1) = turn + 1 + t by omega] at this)
    have hcontent : lastContent model (model turn) (turn + 1) fuel
        = (model (turn + fuel)).content := by
      unfold lastContent
      by_cases hf : fuel = 0
      · subst hf; simp
      · rw [if_neg hf]
        congr 2
        omega
    rw [hcontent] at hrec
    refine ⟨msgs3, ?_⟩
    rw [chatLoop_succ_tools env model fuel turn msgs (some m) calls h0.1]
    simp only [hp]
    rw [hrec]
    have hcontent2 : lastContent model m turn (fuel + 1)
        = (model (turn + fuel)).content := by
      unfold lastContent
      rw [if_neg (Nat.succ_ne_zero fuel)]
      congr 2
    rw [hcontent2, show calls + 1 + fuel = calls + (fuel + 1) by omega]

theorem chatLoop_success (env : Env) (model : Nat → ModelMessage) :
    ∀ (k fuel turn : Nat) (msgs : List HistMsg) (lastMsg : Option ModelMessage)
      (calls : Nat), k < fuel →
      (∀ j, j < k → (model (turn + j)).tool_calls ≠ [] ∧
        ∀ tc ∈ (model (turn + j)).tool_calls, toolCallOk env tc = true) →
      (model (turn + k)).tool_calls = [] →
      ∃ msgs2, chatLoop env model fuel turn msgs lastMsg calls =
        .ok { ret := { content := (model (turn + k)).content, tool_calls := none },
              msgs := msgs2, modelCalls := calls + k + 1 } := by
  intro k
  induction k with
  | zero =>
    intro fuel turn msgs lastMsg calls hk _ hstop
    obtain ⟨fuel, rfl⟩ : ∃ f, fuel = f + 1 := ⟨fuel - 1, by omega⟩
    rw [Nat.add_zero] at hstop
    refine ⟨msgs, ?_⟩
    rw [chatLoop_succ_empty env model fuel turn msgs lastMsg calls hstop]
    simp
  | succ k ih =>
    intro fuel turn msgs lastMsg calls hk h hstop
    obtain ⟨fuel, rfl⟩ : ∃ f, fuel = f + 1 := ⟨fuel - 1, by omega⟩
    have h0 := h 0 (Nat.succ_pos k)
    rw [Nat.add_zero] at h0
    obtain ⟨msgs2, hp⟩ := processToolCalls_ok_exists env _ h0.2
      (msgs ++ [.assistant (pyOr (model turn).content "") (model turn).tool_calls])
    obtain ⟨msgs3, hrec⟩ := ih fuel (turn + 1) msgs2 (some (model turn)) (calls + 1)
      (by omega)
      (fun j hj => by
        have := h (j + 1) (Nat.succ_lt_succ hj)
        rwa [show turn + (j + 1) = turn + 1 + j by omega] at this)
      (by rwa [show turn + 1 + k = turn + (k + 1) by omega])
    rw [show turn + 1 + k = turn + (k + 1) by omega,
        show calls + 1 + k + 1 = calls + (k + 1) + 1 by omega] at hrec
    refine ⟨msgs3, ?_⟩
    rw [chatLoop_succ_tools env model fuel turn msgs lastMsg calls h0.1]
    simp only [hp]
    exact hrec

theorem chatLoop_cases (env : Env) (model : Nat → ModelMessage) :
    ∀ (fuel turn : Nat) (msgs : List HistMsg) (m : ModelMessage) (calls : Nat)
      (out : ChatOutcome),
      chatLoop env model fuel turn msgs (some m) calls = .ok out →
      (∃ k, k < fuel ∧ (∀ j, j < k → (model (turn + j)).tool_calls ≠ []) ∧
        (model (turn + k)).tool_calls = [] ∧
        out.ret.content = (model (turn + k)).content ∧
        out.ret.tool_calls = none ∧ out.modelCalls = calls + k + 1) ∨
      ((∀ j, j < fuel → (model (turn + j)).tool_calls ≠ []) ∧
        out.ret.content = some (pyOr (if fuel = 0 then m.content
            else (model (turn + fuel - 1)).content) fallbackMessage) ∧
        out.ret.tool_calls = none ∧ out.modelCalls = calls + fuel) := by
  intro fuel
  induction fuel with
  | zero =>
    intro turn msgs m calls out h
    rw [chatLoop_zero_some] at h
    cases h
    exact Or.inr ⟨fun j hj => absurd hj (Nat.not_lt_zero j), by simp, rfl, rfl⟩
  | succ fuel ih =>
    intro turn msgs m calls out h
    by_cases he : (model turn).tool_calls = []
    · rw [chatLoop_succ_empty env model fuel turn msgs (some m) calls he] at h
      cases h
      refine Or.inl ⟨0, Nat.succ_pos fuel, fun j hj => absurd hj (Nat.not_lt_zero j),
        by rwa [Nat.add_zero], by simp, rfl, rfl⟩
    · rw [chatLoop_succ_tools env model fuel turn msgs (some m) calls he] at h
      cases hp : processToolCalls env (model turn).tool_calls
          (msgs ++ [.assistant (pyOr (model turn).content "")
                      (model turn).tool_calls]) with
      | error e => simp only [hp] at h; cases h
      | ok msgs2 =>
        simp only [hp] at h
        rcases ih (turn + 1) msgs2 (model turn) (calls + 1) out h with
          ⟨k, hk, hpre, hstop, hc, htc, hmc⟩ | ⟨hall, hc, htc, hmc⟩
        · refine Or.inl ⟨k + 1, Nat.succ_lt_succ hk, ?_, ?_, ?_, htc, by omega⟩
          · intro j hj
            cases j with
            | zero => rwa [Nat.add_zero]
            | succ j =>
              have := hpre j (by omega)
              rwa [show turn + 1 + j = turn + (j + 1) by omega] at this
          · rwa [show turn + 1 + k = turn + (k + 1) by omega] at hstop
          · rwa [show turn + 1 + k = turn + (k + 1) by omega] at hc
        · refine Or.inr ⟨?_, ?_, htc, by omega⟩
          · intro j hj
            cases j with
            | zero => rwa [Nat.add_zero]
            | succ j =>
              have := hall j (by omega)
              rwa [show turn + 1 + j = turn + (j + 1) by omega] at this
          · rw [hc]
            have hcontent : (if fuel = 0 then (model turn).content
                else (model (turn + 1 + fuel - 1)).content)
                = (model (turn + fuel)).content := by
              by_cases hf : fuel = 0
              · subst hf; simp
              · rw [if_neg hf]
                congr 2
                omega
            rw [hcontent]
            have h1 : (fuel + 1 = 0) = False := by simp
            simp only [h1, if_false]
            rw [show turn + (fuel + 1) - 1 = turn + fuel by omega]

theorem zip_map_left {α β γ : Type} (f : α → γ) :
    ∀ (xs : List α) (ys : List β), ys.length = xs.length →
      (xs.zip ys).map (fun p => f p.1) = xs.map f := by
  intro xs
  induction xs with
  | nil => intro ys _; simp
  | cons x xs ih =>
    intro ys hy
    cases ys with
    | nil => simp at hy
    | cons y ys =>
      simp only [List.zip_cons_cons, List.map_cons]
      rw [ih ys (by simpa using hy)]

/-- C2: in every completed `chat` run, the conversation is the user seed
followed by per-turn blocks; each block is the assistant message carrying
all `N` requests of that turn (appended once, content substituted from the
model response), immediately followed by exactly `N` tool-role messages,
one per request in emission order, whose `tool_call_id`s and names match
the requests pairwise; no other message interleaves and the block is
complete before the next turn's messages. -/
theorem spec_C2 (env : Env) (model : Nat → ModelMessage) (u : String)
    (out : ChatOutcome) (h : chat env model u = .ok out) :
    ∃ L : List (String × List ToolCall × List ToolResult),
      out.msgs =
        HistMsg.user u :: (L.map (fun b => toolBlock b.1 b.2.1 b.2.2)).flatten ∧
      ∀ b ∈ L,
        b.2.1 ≠ [] ∧
        b.2.2.length = b.2.1.length ∧
        toolBlock b.1 b.2.1 b.2.2 =
          HistMsg.assistant b.1 b.2.1 ::
            (b.2.1.zip b.2.2).map (fun p => HistMsg.tool p.1.id p.1.name p.2) ∧
        (toolBlock b.1 b.2.1 b.2.2).tail.length = b.2.1.length ∧
        (toolBlock b.1 b.2.1 b.2.2).tail.map histToolCallId =
          b.2.1.map (fun tc => some tc.id) ∧
        (toolBlock b.1 b.2.1 b.2.2).tail.map histToolName =
          b.2.1.map (fun tc => some tc.name) := by
  have h2 : chatLoop env model maxTurns 0 [HistMsg.user u] none 0 = .ok out := h
  obtain ⟨L, hm, hb⟩ := chatLoop_trace env model maxTurns 0 _ none 0 out h2
  refine ⟨L, by simpa using hm, ?_⟩
  intro b hbmem
  obtain ⟨hne, hlen, -⟩ := hb b hbmem
  have hziplen : (b.2.1.zip b.2.2).length = b.2.1.length := by
    simp [List.length_zip, hlen]
  refine ⟨hne, hlen, rfl, ?_, ?_, ?_⟩
  · simp [toolBlock, hziplen]
  · simp only [toolBlock, List.tail_cons, List.map_map]
    exact zip_map_left (fun tc => some tc.id) b.2.1 b.2.2 hlen
  · simp only [toolBlock, List.tail_cons, List.map_map]
    exact zip_map_left (fun tc => some tc.name) b.2.1 b.2.2 hlen

/-- C4: when every model response up to the turn budget requests at least
one tool (and every request is processable), `chat` makes exactly
`max_turns` model calls, terminates through the budget-exhausted path, and
returns `tool_calls: None` with the last response's content when that is a
non-empty string and the fixed rephrase fallback when it is `None` or
empty. -/
theorem spec_C4 (env : Env) (model : Nat → ModelMessage) (u : String)
    (h : ∀ t, t < maxTurns → (model t).tool_calls ≠ [] ∧
      ∀ tc ∈ (model t).tool_calls, toolCallOk env tc = true) :
    ∃ out, chat env model u = .ok out ∧
      out.modelCalls = maxTurns ∧
      out.ret.tool_calls = none ∧
      out.ret.content =
        some (pyOr (model (maxTurns - 1)).content fallbackMessage) ∧
      (∀ str, (model (maxTurns - 1)).content = some str → str ≠ "" →
        out.ret.content = some str) ∧
      (((model (maxTurns - 1)).content = none ∨
        (model (maxTurns - 1)).content = some "") →
        out.ret.content = some fallbackMessage) := by
  obtain ⟨msgs2, hb⟩ := chatLoop_budget env model maxTurns 0 [HistMsg.user u]
    { content := none, tool_calls := [] } 0 (by simpa using h)
  have hl : lastContent model { content := none, tool_calls := [] } 0 maxTurns
      = (model (maxTurns - 1)).content := by
    unfold lastContent maxTurns
    norm_num
  rw [hl] at hb
  have hchat : chat env model u =
      chatLoop env model maxTurns 0 [HistMsg.user u]
        (some { content := none, tool_calls := [] }) 0 := rfl
  refine ⟨_, hchat.trans hb, by simp, rfl, rfl, ?_, ?_⟩
  · intro str hs hne
    simp [pyOr, hs, hne]
  · intro hcase
    rcases hcase with hc | hc <;> simp [pyOr, hc]

/-- C5: a model response without tool requests ends the loop at once: on
the first turn `chat` stops after exactly one model call with the exact
conversation seed and `{content: message.content, tool_calls: None}`; the
same branch may fire on any later turn (second conjunct); and it is the
sole success-termination path: every completed run either stopped at the
first tool-free response or exhausted the full turn budget (third
conjunct). -/
theorem spec_C5 (env : Env) (model : Nat → ModelMessage) (u : String) :
    ((model 0).tool_calls = [] →
      chat env model u =
        .ok { ret := { content := (model 0).content, tool_calls := none },
              msgs := [HistMsg.user u], modelCalls := 1 }) ∧
    (∀ t, t < maxTurns →
      (∀ j, j < t → (model j).tool_calls ≠ [] ∧
        ∀ tc ∈ (model j).tool_calls, toolCallOk env tc = true) →
      (model t).tool_calls = [] →
      ∃ out, chat env model u = .ok out ∧
        out.ret.content = (model t).content ∧ out.ret.tool_calls = none ∧
        out.modelCalls = t + 1) ∧
    (∀ out, chat env model u = .ok out →
      (∃ t, t < maxTurns ∧ (∀ j, j < t → (model j).tool_calls ≠ []) ∧
        (model t).tool_calls = [] ∧ out.ret.content = (model t).content ∧
        out.ret.tool_calls = none ∧ out.modelCalls = t + 1) ∨
      ((∀ j, j < maxTurns → (model j).tool_calls ≠ []) ∧
        out.modelCalls = maxTurns ∧
        out.ret.content =
          some (pyOr (model (maxTurns - 1)).content fallbackMessage))) := by
  refine ⟨?_, ?_, ?_⟩
  · intro h0
    have h1 : chat env model u =
        chatLoop env model (Nat.succ 9) 0 [HistMsg.user u] none 0 := rfl
    rw [h1, chatLoop_succ_empty env model 9 0 [HistMsg.user u] none 0 h0]
  · intro t ht hpre hstop
    obtain ⟨msgs2, hs⟩ := chatLoop_success env model t maxTurns 0
      [HistMsg.user u] none 0 ht (by simpa using hpre) (by simpa using hstop)
    rw [Nat.zero_add] at hs
    exact ⟨_, hs, rfl, rfl, by simp⟩
  · intro out hout
    have h2 : chatLoop env model maxTurns 0 [HistMsg.user u]
        (some { content := none, tool_calls := [] }) 0 = .ok out := hout
    rcases chatLoop_cases env model maxTurns 0 _ _ 0 out h2 with
      ⟨k, hk, hpre, hstop, hc, htc, hmc⟩ | ⟨hall, hc, htc, hmc⟩
    · exact Or.inl ⟨k, hk, by simpa using hpre, by simpa using hstop,
        by simpa using hc, htc, by omega⟩
    · refine Or.inr ⟨by simpa using hall, by omega, ?_⟩
      rw [hc]
      norm_num [maxTurns]

/-- C10: on the success path `chat` returns the model message's `content`
field unmodified, so the returned content is `None` exactly when the model
supplied none (first conjunct); conversely a completed run returning
`None` content can only have terminated through the success branch, on a
turn whose response had no tool calls and no content — the budget path
always substitutes a string (second conjunct). -/
theorem spec_C10 (env : Env) (model : Nat → ModelMessage) (u : String) :
    (∀ t, t < maxTurns →
      (∀ j, j < t → (model j).tool_calls ≠ [] ∧
        ∀ tc ∈ (model j).tool_calls, toolCallOk env tc = true) →
      (model t).tool_calls = [] →
      ∃ out, chat env model u = .ok out ∧
        out.ret.content = (model t).content ∧
        ((model t).content = none → out.ret.content = none) ∧
        (∀ str, (model t).content = some str → out.ret.content = some str)) ∧
    (∀ out, chat env model u = .ok out → out.ret.content = none →
      ∃ t, t < maxTurns ∧ (model t).tool_calls = [] ∧
        (model t).content = none ∧ out.modelCalls = t + 1) := by
  constructor
  · intro t ht hpre hstop
    obtain ⟨msgs2, hs⟩ := chatLoop_success env model t maxTurns 0
      [HistMsg.user u] none 0 ht (by simpa using hpre) (by simpa using hstop)
    rw [Nat.zero_add] at hs
    exact ⟨_, hs, rfl, fun h => by rw [← h], fun str h => by rw [← h]⟩
  · intro out hout hnone
    have h2 : chatLoop env model maxTurns 0 [HistMsg.user u]
        (some { content := none, tool_calls := [] }) 0 = .ok out := hout
    rcases chatLoop_cases env model maxTurns 0 _ _ 0 out h2 with
      ⟨k, hk, hpre, hstop, hc, htc, hmc⟩ | ⟨hall, hc, htc, hmc⟩
    · rw [hnone] at hc
      exact ⟨k, hk, by simpa using hstop, by simpa using hc.symm, by omega⟩
    · rw [hnone] at hc
      cases hc

/-- C3: a tool request whose name is registered to neither `web_search`
nor `read_page` dispatches (once its arguments parse) to the
`{"error": "Unknown tool: <name>"}` result, whose error text contains the
offending name; the result is appended to the conversation as an ordinary
tool message and processing continues with the remaining requests (and,
via the loop, the next turn) instead of raising or stopping. -/
theorem spec_C3 (env : Env) (tc : ToolCall) (rest : List ToolCall)
    (msgs : List HistMsg) (args : List (String × String))
    (hj : env.jsonLoads tc.arguments = .ok args)
    (h1 : tc.name ≠ "web_search") (h2 : tc.name ≠ "read_page") :
    routeTool env tc.name args =
      .ok (.unknownTool ("Unknown tool: " ++ tc.name)) ∧
    (∃ pre, pre ++ tc.name.data = ("Unknown tool: " ++ tc.name).data) ∧
    processToolCalls env (tc :: rest) msgs =
      processToolCalls env rest
        (msgs ++ [HistMsg.tool tc.id tc.name
          (.unknownTool ("Unknown tool: " ++ tc.name))]) ∧
    toolCallOk env tc = true := by
  have hroute : routeTool env tc.name args =
      .ok (.unknownTool ("Unknown tool: " ++ tc.name)) := by
    unfold routeTool
    rw [if_neg h1, if_neg h2]
  refine ⟨hroute, ⟨"Unknown tool: ".data, ?_⟩, ?_, ?_⟩
  · rw [String.data_append]
  · simp only [processToolCalls, hj, hroute]
  · unfold toolCallOk
    rw [hj]
    simp [h1, h2]

/-- C1 counterexample: with a model response whose single tool request
carries an unparsable `arguments` payload, `chat` does not record an error
`ToolResult` and continue — the `json.loads` failure propagates out of the
function as an exception (no `.ok` outcome exists). This refutes the claim
that unparsable arguments are handled like an unknown tool name. -/
theorem spec_C1_counterexample :
    chat badEnv badModel "What is the weather?" =
      .error (.jsonDecodeError "Expecting value: line 1 column 1 (char 0)") ∧
    ∀ out, chat badEnv badModel "What is the weather?" ≠ .ok out := by
  have hEq : chat badEnv badModel "What is the weather?" =
      .error (.jsonDecodeError "Expecting value: line 1 column 1 (char 0)") := rfl
  exact ⟨hEq, fun out h => by rw [hEq] at h; cases h⟩

/-- C1 amended: an unknown tool name is converted into an error
`ToolResult` (see C3), but a tool request whose `arguments` payload fails
to parse as JSON makes `json.loads` raise; the exception propagates out of
`chat` before any tool message for that request is recorded, aborting the
loop instead of being fed back as a dispatch-error result. -/
theorem spec_C1_amended (env : Env) (model : Nat → ModelMessage) (u : String)
    (tc : ToolCall) (rest : List ToolCall) (e : String)
    (h0 : (model 0).tool_calls = tc :: rest)
    (hj : env.jsonLoads tc.arguments = .error e) :
    chat env model u = .error (.jsonDecodeError e) := by
  have h1 : chat env model u =
      chatLoop env model (Nat.succ 9) 0 [HistMsg.user u] none 0 := rfl
  rw [h1, chatLoop_succ_tools env model 9 0 [HistMsg.user u] none 0
    (by rw [h0]; exact List.cons_ne_nil tc rest)]
  have hp : processToolCalls env (model 0).tool_calls
      ([HistMsg.user u] ++ [.assistant (pyOr (model 0).content "")
        (model 0).tool_calls]) = .error (.jsonDecodeError e) := by
    rw [h0]
    simp only [processToolCalls, hj]
  rw [hp]

/-! ### Text-normalization lemmas -/

theorem mem_dropWhile {p : Char → Bool} : ∀ {s : List Char} {c : Char},
    c ∈ s.dropWhile p → c ∈ s := by
  intro s
  induction s with
  | nil => intro c h; simp at h
  | cons x xs ih =>
    intro c h
    rw [List.dropWhile_cons] at h
    by_cases hp : p x = true
    · rw [if_pos hp] at h
      exact List.mem_cons_of_mem x (ih h)
    · rwa [if_neg hp] at h

theorem dropWhile_head_not {p : Char → Bool} : ∀ (s : List Char) (c : Char),
    (s.dropWhile p).head? = some c → p c = false := by
  intro s
  induction s with
  | nil => intro c h; simp at h
  | cons x xs ih =>
    intro c h
    rw [List.dropWhile_cons] at h
    by_cases hp : p x = true
    · rw [if_pos hp] at h
      exact ih c h
    · rw [if_neg hp] at h
      simp only [List.head?_cons, Option.some.injEq] at h
      subst h
      simpa using hp

theorem dropWhile_eq_self {p : Char → Bool} (s : List Char)
    (h : ∀ c ∈ s, p c = false) : s.dropWhile p = s := by
  cases s with
  | nil => rfl
  | cons x xs =>
    rw [List.dropWhile_cons, h x (List.mem_cons_self x xs)]
    simp

theorem dropWhile_suffix_ex {p : Char → Bool} : ∀ (s : List Char),
    ∃ t, t ++ s.dropWhile p = s := by
  intro s
  induction s with
  | nil => exact ⟨[], rfl⟩
  | cons x xs ih =>
    by_cases hp : p x = true
    · obtain ⟨t, ht⟩ := ih
      exact ⟨x :: t, by rw [List.dropWhile_cons, if_pos hp]; simp [ht]⟩
    · exact ⟨[], by rw [List.dropWhile_cons, if_neg hp]; simp⟩

theorem pyStrip_mem {s : List Char} {c : Char} (h : c ∈ pyStrip s) : c ∈ s := by
  unfold pyStrip at h
  rw [List.mem_reverse] at h
  have h2 := mem_dropWhile h
  rw [List.mem_reverse] at h2
  exact mem_dropWhile h2

theorem pyStrip_getLast {s : List Char} {c : Char}
    (h : (pyStrip s).getLast? = some c) : isPySpace c = false := by
  unfold pyStrip at h
  rw [List.getLast?_reverse] at h
  exact dropWhile_head_not _ c h

theorem pyStrip_head {s : List Char} {c : Char}
    (h : (pyStrip s).head? = some c) : isPySpace c = false := by
  unfold pyStrip at h
  rw [List.head?_reverse] at h
  obtain ⟨t, ht⟩ := dropWhile_suffix_ex (p := isPySpace)
    (s.dropWhile isPySpace).reverse
  by_cases hnil : (s.dropWhile isPySpace).reverse.dropWhile isPySpace = []
  · rw [hnil] at h
    simp at h
  · have h3 : (s.dropWhile isPySpace).reverse.getLast? = some c := by
      rw [← ht, List.getLast?_append_of_ne_nil t hnil, h]
    rw [List.getLast?_reverse] at h3
    exact dropWhile_head_not s c h3

theorem pyStrip_eq_self (s : List Char) (h : ∀ c ∈ s, isPySpace c = false) :
    pyStrip s = s := by
  unfold pyStrip
  rw [dropWhile_eq_self s h,
      dropWhile_eq_self _ (fun c hc => h c (List.mem_reverse.mp hc)),
      List.reverse_reverse]

theorem joinWithSpace_mem : ∀ (xs : List (List Char)) (c : Char),
    c ∈ joinWithSpace xs → c = ' ' ∨ ∃ x ∈ xs, c ∈ x := by
  intro xs
  induction xs with
  | nil => intro c h; simp [joinWithSpace] at h
  | cons x xs ih =>
    intro c h
    cases xs with
    | nil => exact Or.inr ⟨x, by simp, by simpa [joinWithSpace] using h⟩
    | cons y ys =>
      have he : joinWithSpace (x :: y :: ys) =
          x ++ ' ' :: joinWithSpace (y :: ys) := rfl
      rw [he] at h
      rcases List.mem_append.mp h with hx | hx
      · exact Or.inr ⟨x, by simp, hx⟩
      · rcases List.mem_cons.mp hx with rfl | hx
        · exact Or.inl rfl
        · rcases ih c hx with hsp | ⟨z, hz, hcz⟩
          · exact Or.inl hsp
          · exact Or.inr ⟨z, List.mem_cons_of_mem x hz, hcz⟩

theorem joinWithSpace_head?_eq (x : List Char) (xs : List (List Char))
    (hx : x ≠ []) : (joinWithSpace (x :: xs)).head? = x.head? := by
  cases xs with
  | nil => rfl
  | cons y ys =>
    have he : joinWithSpace (x :: y :: ys) =
        x ++ ' ' :: joinWithSpace (y :: ys) := rfl
    rw [he, List.head?_append_of_ne_nil _ hx]

theorem joinWithSpace_ne_nil (x : List Char) (xs : List (List Char))
    (hx : x ≠ []) : joinWithSpace (x :: xs) ≠ [] := by
  intro h
  have h2 := joinWithSpace_head?_eq x xs hx
  rw [h] at h2
  simp only [List.head?_nil] at h2
  exact hx (List.head?_eq_none_iff.mp h2.symm)

theorem joinWithSpace_getLast?_mem : ∀ (xs : List (List Char)),
    (∀ x ∈ xs, x ≠ []) → ∀ c, (joinWithSpace xs).getLast? = some c →
    ∃ x ∈ xs, x.getLast? = some c := by
  intro xs
  induction xs with
  | nil => intro _ c h; simp [joinWithSpace] at h
  | cons x xs ih =>
    intro hne c h
    cases xs with
    | nil => exact ⟨x, by simp, by simpa [joinWithSpace] using h⟩
    | cons y ys =>
      have he : joinWithSpace (x :: y :: ys) =
          x ++ ' ' :: joinWithSpace (y :: ys) := rfl
      rw [he] at h
      have hys : joinWithSpace (y :: ys) ≠ [] :=
        joinWithSpace_ne_nil y ys (hne y (by simp))
      rw [List.getLast?_append_of_ne_nil x (by simp)] at h
      have h2 : (' ' :: joinWithSpace (y :: ys)) =
          [' '] ++ joinWithSpace (y :: ys) := rfl
      rw [h2, List.getLast?_append_of_ne_nil _ hys] at h
      obtain ⟨z, hz, hcz⟩ := ih (fun t ht => hne t (List.mem_cons_of_mem x ht)) c h
      exact ⟨z, List.mem_cons_of_mem x hz, hcz⟩

theorem splitlinesGo_nil_no_break (cur : List Char)
    (hcur : ∀ c ∈ cur, isLineBreak c = false) :
    ∀ l ∈ splitlinesGo [] cur, ∀ c ∈ l, isLineBreak c = false := by
  intro l hl c hc
  rw [splitlinesGo.eq_1] at hl
  by_cases h : cur = []
  · rw [if_pos h] at hl
    simp at hl
  · rw [if_neg h] at hl
    simp only [List.mem_singleton] at hl
    subst hl
    exact hcur c (List.mem_reverse.mp hc)

theorem splitlinesGo_no_break : ∀ (fuel : Nat) (s cur : List Char),
    s.length ≤ fuel → (∀ c ∈ cur, isLineBreak c = false) →
    ∀ l ∈ splitlinesGo s cur, ∀ c ∈ l, isLineBreak c = false := by
  intro fuel
  induction fuel with
  | zero =>
    intro s cur hlen hcur
    have hs : s = [] := List.eq_nil_of_length_eq_zero (Nat.le_zero.mp hlen)
    subst hs
    exact splitlinesGo_nil_no_break cur hcur
  | succ fuel ih =>
    intro s cur hlen hcur
    cases s with
    | nil => exact splitlinesGo_nil_no_break cur hcur
    | cons ch rest =>
      intro l hl c hc
      cases rest with
      | nil =>
        rw [splitlinesGo.eq_2] at hl
        by_cases hbr : isLineBreak ch = true
        · rw [if_pos hbr] at hl
          simp only [List.mem_singleton] at hl
          subst hl
          exact hcur c (List.mem_reverse.mp hc)
        · rw [if_neg hbr] at hl
          have hbr2 : isLineBreak ch = false := by simpa using hbr
          refine ih [] (ch :: cur) (by simp) ?_ l hl c hc
          intro d hd
          rcases List.mem_cons.mp hd with rfl | hd
          · exact hbr2
          · exact hcur d hd
      | cons ch2 rest2 =>
        rw [splitlinesGo.eq_3] at hl
        by_cases hbr : isLineBreak ch = true
        · rw [if_pos hbr] at hl
          rcases List.mem_cons.mp hl with rfl | hl
          · exact hcur c (List.mem_reverse.mp hc)
          · by_cases hrn : (ch == '\x0d' && ch2 == '\n') = true
            · rw [if_pos hrn] at hl
              refine ih rest2 [] ?_ (by simp) l hl c hc
              simp only [List.length_cons] at hlen
              omega
            · rw [if_neg hrn] at hl
              refine ih (ch2 :: rest2) [] ?_ (by simp) l hl c hc
              simp only [List.length_cons] at hlen ⊢
              omega
        · rw [if_neg hbr] at hl
          have hbr2 : isLineBreak ch = false := by simpa using hbr
          refine ih (ch2 :: rest2) (ch :: cur) ?_ ?_ l hl c hc
          · simp only [List.length_cons] at hlen ⊢
            omega
          · intro d hd
            rcases List.mem_cons.mp hd with rfl | hd
            · exact hbr2
            · exact hcur d hd

theorem pySplitlines_no_break (s : List Char) :
    ∀ l ∈ pySplitlines s, ∀ c ∈ l, isLineBreak c = false :=
  splitlinesGo_no_break s.length s [] le_rfl (by simp)

theorem splitDoubleSpaceGo_mem : ∀ (fuel : Nat) (s cur : List Char),
    s.length ≤ fuel →
    ∀ l ∈ splitDoubleSpaceGo s cur, ∀ c ∈ l, c ∈ s ∨ c ∈ cur := by
  intro fuel
  induction fuel with
  | zero =>
    intro s cur hlen l hl c hc
    have hs : s = [] := List.eq_nil_of_length_eq_zero (Nat.le_zero.mp hlen)
    subst hs
    rw [splitDoubleSpaceGo.eq_1] at hl
    simp only [List.mem_singleton] at hl
    subst hl
    exact Or.inr (List.mem_reverse.mp hc)
  | succ fuel ih =>
    intro s cur hlen l hl c hc
    cases s with
    | nil =>
      rw [splitDoubleSpaceGo.eq_1] at hl
      simp only [List.mem_singleton] at hl
      subst hl
      exact Or.inr (List.mem_reverse.mp hc)
    | cons c1 rest =>
      cases rest with
      | nil =>
        rw [splitDoubleSpaceGo.eq_3 cur c1 []
          (fun r h1 h2 => List.noConfusion h2)] at hl
        rcases ih [] (c1 :: cur) (by simp) l hl c hc with h | h
        · simp at h
        · rcases List.mem_cons.mp h with rfl | h
          · exact Or.inl (List.mem_cons_self c [])
          · exact Or.inr h
      | cons c2 rest2 =>
        by_cases hsp : c1 = ' ' ∧ c2 = ' '
        · obtain ⟨rfl, rfl⟩ := hsp
          rw [splitDoubleSpaceGo.eq_2] at hl
          rcases List.mem_cons.mp hl with rfl | hl
          · exact Or.inr (List.mem_reverse.mp hc)
          · rcases ih rest2 [] (by simp only [List.length_cons] at hlen; omega)
              l hl c hc with h | h
            · exact Or.inl (List.mem_cons_of_mem _ (List.mem_cons_of_mem _ h))
            · simp at h
        · rw [splitDoubleSpaceGo.eq_3 cur c1 (c2 :: rest2)
            (fun r h1 h2 => hsp ⟨h1, by injection h2⟩)] at hl
          rcases ih (c2 :: rest2) (c1 :: cur)
            (by simp only [List.length_cons] at hlen ⊢; omega) l hl c hc with h | h
          · exact Or.inl (List.mem_cons_of_mem _ h)
          · rcases List.mem_cons.mp h with rfl | h
            · exact Or.inl (List.mem_cons_self _ _)
            · exact Or.inr h

theorem splitDoubleSpace_mem (s : List Char) :
    ∀ l ∈ splitDoubleSpace s, ∀ c ∈ l, c ∈ s := by
  intro l hl c hc
  rcases splitDoubleSpaceGo_mem s.length s [] le_rfl l hl c hc with h | h
  · exact h
  · simp at h

theorem normalizeText_eq (s : List Char) :
    normalizeText s = joinWithSpace
      (((((pySplitlines s).map pyStrip).map
        (fun line => (splitDoubleSpace line).map pyStrip)).flatten).filter
        (fun c => !c.isEmpty)) := rfl

theorem mem_chunks (s x : List Char)
    (hx : x ∈ (((pySplitlines s).map pyStrip).map
      (fun line => (splitDoubleSpace line).map pyStrip)).flatten) :
    ∃ phrase, x = pyStrip phrase ∧ ∀ c ∈ phrase, isLineBreak c = false := by
  rw [List.mem_flatten] at hx
  obtain ⟨lx, hlx, hxlx⟩ := hx
  rw [List.mem_map] at hlx
  obtain ⟨line2, hline2, rfl⟩ := hlx
  rw [List.mem_map] at hline2
  obtain ⟨line, hline, rfl⟩ := hline2
  rw [List.mem_map] at hxlx
  obtain ⟨phrase, hphrase, rfl⟩ := hxlx
  refine ⟨phrase, rfl, ?_⟩
  intro c hc
  have h1 : c ∈ pyStrip line := splitDoubleSpace_mem _ _ hphrase c hc
  exact pySplitlines_no_break s line hline c (pyStrip_mem h1)

theorem normalizeText_no_break (s : List Char) :
    ∀ c ∈ normalizeText s, isLineBreak c = false := by
  intro c hc
  rw [normalizeText_eq] at hc
  rcases joinWithSpace_mem _ c hc with rfl | ⟨x, hx, hcx⟩
  · decide
  · obtain ⟨phrase, rfl, hph⟩ := mem_chunks s x (List.mem_filter.mp hx).1
    exact hph c (pyStrip_mem hcx)

theorem normalizeText_head (s : List Char) (c : Char)
    (h : (normalizeText s).head? = some c) : isPySpace c = false := by
  rw [normalizeText_eq] at h
  cases hF : ((((pySplitlines s).map pyStrip).map
      (fun line => (splitDoubleSpace line).map pyStrip)).flatten).filter
      (fun c => !c.isEmpty) with
  | nil =>
    rw [hF] at h
    simp [joinWithSpace] at h
  | cons x xs =>
    rw [hF] at h
    have hxmem : x ∈ ((((pySplitlines s).map pyStrip).map
        (fun line => (splitDoubleSpace line).map pyStrip)).flatten).filter
        (fun c => !c.isEmpty) := by
      rw [hF]
      exact List.mem_cons_self x xs
    have hxne : x ≠ [] := by
      have h2 := (List.mem_filter.mp hxmem).2
      simpa [List.isEmpty_iff] using h2
    rw [joinWithSpace_head?_eq x xs hxne] at h
    obtain ⟨phrase, rfl, -⟩ := mem_chunks s x (List.mem_filter.mp hxmem).1
    exact pyStrip_head h

theorem normalizeText_getLast (s : List Char) (c : Char)
    (h : (normalizeText s).getLast? = some c) : isPySpace c = false := by
  rw [normalizeText_eq] at h
  have hall : ∀ x ∈ ((((pySplitlines s).map pyStrip).map
      (fun line => (splitDoubleSpace line).map pyStrip)).flatten).filter
      (fun c => !c.isEmpty), x ≠ [] := by
    intro x hx
    have h2 := (List.mem_filter.mp hx).2
    simpa [List.isEmpty_iff] using h2
  obtain ⟨x, hx, hlast⟩ := joinWithSpace_getLast?_mem _ hall c h
  obtain ⟨phrase, rfl, -⟩ := mem_chunks s x (List.mem_filter.mp hx).1
  exact pyStrip_getLast hlast

theorem truncMarker_no_break : ∀ c ∈ truncMarker, isLineBreak c = false := by
  decide

theorem limitText_no_break (t : List Char)
    (ht : ∀ c ∈ t, isLineBreak c = false) :
    ∀ c ∈ limitText t, isLineBreak c = false := by
  intro c hc
  unfold limitText at hc
  by_cases hlen : t.length > maxChars
  · rw [if_pos hlen] at hc
    rcases List.mem_append.mp hc with h | h
    · exact ht c (List.mem_of_mem_take h)
    · exact truncMarker_no_break c h
  · rw [if_neg hlen] at hc
    exact ht c hc

theorem limitText_head (t : List Char) (c : Char)
    (ht : ∀ d, t.head? = some d → isPySpace d = false)
    (h : (limitText t).head? = some c) : isPySpace c = false := by
  unfold limitText at h
  by_cases hlen : t.length > maxChars
  · rw [if_pos hlen] at h
    cases t with
    | nil => simp [maxChars] at hlen
    | cons a t2 =>
      rw [List.head?_append_of_ne_nil] at h
      · rw [show maxChars = 4999 + 1 from rfl, List.take_succ_cons] at h
        exact ht c h
      · rw [show maxChars = 4999 + 1 from rfl, List.take_succ_cons]
        exact List.cons_ne_nil a _
  · rw [if_neg hlen] at h
    exact ht c h

theorem limitText_getLast (t : List Char) (c : Char)
    (ht : ∀ d, t.getLast? = some d → isPySpace d = false)
    (h : (limitText t).getLast? = some c) : isPySpace c = false := by
  unfold limitText at h
  by_cases hlen : t.length > maxChars
  · rw [if_pos hlen,
      List.getLast?_append_of_ne_nil _ (by decide : truncMarker ≠ [])] at h
    have h2 : truncMarker.getLast? = some (Char.ofNat 41) := by decide
    rw [h2] at h
    injection h with h3
    subst h3
    decide
  · rw [if_neg hlen] at h
    exact ht c h

/-- C9: the `text` of every `read_page` success result contains no
line-break character and has neither leading nor trailing whitespace: the
clean-up strips each line and double-space-separated phrase and joins only
the non-empty pieces with single spaces, and the truncation marker
contains no newline and ends in a non-whitespace character. -/
theorem spec_C9 (env : Env) (url : String) (raw : List Char) (r : PageSuccess)
    (hf : env.fetchNet url = .success raw) (h : read_page env url = .ok r) :
    (∀ c ∈ r.text, isLineBreak c = false) ∧
    (∀ c, r.text.head? = some c → isPySpace c = false) ∧
    (∀ c, r.text.getLast? = some c → isPySpace c = false) := by
  have hr : r.text = limitText (normalizeText raw) := by
    unfold read_page at h
    rw [hf] at h
    injection h with h2
    rw [← h2]
  rw [hr]
  exact ⟨limitText_no_break _ (normalizeText_no_break raw),
    fun c => limitText_head _ c (fun d => normalizeText_head raw d),
    fun c => limitText_getLast _ c (fun d => normalizeText_getLast raw d)⟩

theorem splitDoubleSpaceGo_no_space : ∀ (s : List Char),
    (∀ c ∈ s, c ≠ ' ') → ∀ cur,
    splitDoubleSpaceGo s cur = [cur.reverse ++ s] := by
  intro s
  induction s with
  | nil =>
    intro _ cur
    rw [splitDoubleSpaceGo.eq_1, List.append_nil]
  | cons c rest ih =>
    intro h cur
    rw [splitDoubleSpaceGo.eq_3 cur c rest
      (fun r h1 _ => h c (List.mem_cons_self c rest) h1)]
    rw [ih (fun d hd => h d (List.mem_cons_of_mem c hd)) (c :: cur)]
    simp

theorem splitlinesGo_rep_a : ∀ (n : Nat) (cur : List Char),
    splitlinesGo (List.replicate (n + 1) 'a') cur =
      [cur.reverse ++ List.replicate (n + 1) 'a'] := by
  intro n
  induction n with
  | zero =>
    intro cur
    rw [show List.replicate 1 'a' = ['a'] from rfl, splitlinesGo.eq_2,
      if_neg (by decide : ¬ isLineBreak 'a' = true), splitlinesGo.eq_1,
      if_neg (List.cons_ne_nil 'a' cur)]
    simp
  | succ n ih =>
    intro cur
    rw [show List.replicate (n + 1 + 1) 'a'
        = 'a' :: 'a' :: List.replicate n 'a' from by
      rw [List.replicate_succ, List.replicate_succ]]
    rw [splitlinesGo.eq_3, if_neg (by decide : ¬ isLineBreak 'a' = true)]
    rw [show ('a' :: List.replicate n 'a') = List.replicate (n + 1) 'a' from
      (List.replicate_succ 'a' n).symm]
    rw [ih ('a' :: cur)]
    simp [List.replicate_succ]

theorem normalizeText_rep_a (n : Nat) :
    normalizeText (List.replicate (n + 1) 'a') = List.replicate (n + 1) 'a' := by
  have hmem : ∀ c ∈ List.replicate (n + 1) 'a', c = 'a' :=
    fun c hc => List.eq_of_mem_replicate hc
  have hnospace : ∀ c ∈ List.replicate (n + 1) 'a', isPySpace c = false := by
    intro c hc
    rw [hmem c hc]
    decide
  have hnosp2 : ∀ c ∈ List.replicate (n + 1) 'a', c ≠ ' ' := by
    intro c hc
    rw [hmem c hc]
    decide
  rw [normalizeText_eq]
  rw [show pySplitlines (List.replicate (n + 1) 'a')
      = [List.replicate (n + 1) 'a'] from by
    unfold pySplitlines
    rw [splitlinesGo_rep_a]
    simp]
  simp only [List.map_cons, List.map_nil]
  rw [pyStrip_eq_self _ hnospace]
  rw [show splitDoubleSpace (List.replicate (n + 1) 'a')
      = [List.replicate (n + 1) 'a'] from by
    unfold splitDoubleSpace
    rw [splitDoubleSpaceGo_no_space _ hnosp2]
    simp]
  simp only [List.map_cons, List.map_nil, List.flatten_cons, List.flatten_nil,
    List.append_nil]
  rw [pyStrip_eq_self _ hnospace]
  rw [List.filter_cons, List.filter_nil]
  rw [if_pos (by
    rw [List.replicate_succ]
    simp)]
  rfl

theorem normalize_big_length :
    maxChars < (normalizeText (List.replicate 5001 'a')).length := by
  have h := normalizeText_rep_a 5000
  norm_num at h
  rw [h, List.length_replicate]
  norm_num [maxChars]

/-! ### Witnesses: the claim theorems applied at concrete inputs -/

theorem spec_C1_amended_witness :
    chat badEnv badModel "hi" =
      .error (.jsonDecodeError "Expecting value: line 1 column 1 (char 0)") :=
  spec_C1_amended badEnv badModel "hi"
    ⟨"call_1", "web_search", "not json"⟩ []
    "Expecting value: line 1 column 1 (char 0)" rfl rfl

theorem spec_C2_witness :
    ∃ L : List (String × List ToolCall × List ToolResult),
      (ChatOutcome.mk ⟨some "answer", none⟩
        [HistMsg.user "hi",
         HistMsg.assistant "" [⟨"call_1", "web_search", "weather"⟩],
         HistMsg.tool "call_1" "web_search" (.ofSearch (.ok "results"))]
        2).msgs =
        HistMsg.user "hi" :: (L.map (fun b => toolBlock b.1 b.2.1 b.2.2)).flatten ∧
      ∀ b ∈ L,
        b.2.1 ≠ [] ∧
        b.2.2.length = b.2.1.length ∧
        toolBlock b.1 b.2.1 b.2.2 =
          HistMsg.assistant b.1 b.2.1 ::
            (b.2.1.zip b.2.2).map (fun p => HistMsg.tool p.1.id p.1.name p.2) ∧
        (toolBlock b.1 b.2.1 b.2.2).tail.length = b.2.1.length ∧
        (toolBlock b.1 b.2.1 b.2.2).tail.map histToolCallId =
          b.2.1.map (fun tc => some tc.id) ∧
        (toolBlock b.1 b.2.1 b.2.2).tail.map histToolName =
          b.2.1.map (fun tc => some tc.name) :=
  spec_C2 envW modelW "hi" _ rfl

theorem spec_C3_witness :
    routeTool envW "get_weather" [("query", "{}"), ("url", "{}")] =
      .ok (.unknownTool ("Unknown tool: " ++ "get_weather")) ∧
    (∃ pre, pre ++ "get_weather".data =
      ("Unknown tool: " ++ "get_weather").data) ∧
    processToolCalls envW [⟨"id1", "get_weather", "{}"⟩] [] =
      processToolCalls envW []
        ([] ++ [HistMsg.tool "id1" "get_weather"
          (.unknownTool ("Unknown tool: " ++ "get_weather"))]) ∧
    toolCallOk envW ⟨"id1", "get_weather", "{}"⟩ = true :=
  spec_C3 envW ⟨"id1", "get_weather", "{}"⟩ [] []
    [("query", "{}"), ("url", "{}")] rfl (by decide) (by decide)

theorem spec_C4_witness :
    ∃ out, chat envW modelLoop "hi" = .ok out ∧
      out.modelCalls = maxTurns ∧
      out.ret.tool_calls = none ∧
      out.ret.content =
        some (pyOr (modelLoop (maxTurns - 1)).content fallbackMessage) ∧
      (∀ str, (modelLoop (maxTurns - 1)).content = some str → str ≠ "" →
        out.ret.content = some str) ∧
      (((modelLoop (maxTurns - 1)).content = none ∨
        (modelLoop (maxTurns - 1)).content = some "") →
        out.ret.content = some fallbackMessage) :=
  spec_C4 envW modelLoop "hi" (by decide)

theorem spec_C5_witness :
    (chat envW modelSilent "hi" =
      .ok { ret := { content := none, tool_calls := none },
            msgs := [HistMsg.user "hi"], modelCalls := 1 }) ∧
    (∃ out, chat envW modelW "hi" = .ok out ∧
      out.ret.content = (modelW 1).content ∧ out.ret.tool_calls = none ∧
      out.modelCalls = 1 + 1) :=
  ⟨(spec_C5 envW modelSilent "hi").1 rfl,
   (spec_C5 envW modelW "hi").2.1 1 (by decide) (by decide) (by decide)⟩

theorem spec_C6_witness :
    (web_search badEnv "q" = .err "Search request timed out" "q" ∧
      ∃ pre, pre ++ "timed out".data = "Search request timed out".data) ∧
    (read_page badEnv "u" = .err "Page request timed out" "u" ∧
      ∃ pre, pre ++ "timed out".data = "Page request timed out".data) :=
  ⟨(spec_C6 badEnv "q" "u").1 rfl, (spec_C6 badEnv "q" "u").2.1 rfl⟩

theorem spec_C7_witness :
    ∃ r, read_page envBig "u" = .ok r ∧
      r.text.length ≤ maxChars + truncMarker.length ∧
      r.text.length = maxChars + truncMarker.length ∧
      ∃ pre, pre ++ truncMarker = r.text :=
  (spec_C7 envBig "u" (List.replicate 5001 'a') rfl).1 normalize_big_length

theorem spec_C8_witness :
    (PageSuccess.mk "u" "hello world foo".data 15).length =
      (PageSuccess.mk "u" "hello world foo".data 15).text.length ∧
    (PageSuccess.mk "u" "hello world foo".data 15).length ≤
      maxChars + truncMarker.length :=
  spec_C8 envW "u" ⟨"u", "hello world foo".data, 15⟩ (by decide)

theorem spec_C9_witness :
    (∀ c ∈ (PageSuccess.mk "u" "hello world foo".data 15).text,
      isLineBreak c = false) ∧
    (∀ c, (PageSuccess.mk "u" "hello world foo".data 15).text.head? = some c →
      isPySpace c = false) ∧
    (∀ c, (PageSuccess.mk "u" "hello world foo".data 15).text.getLast? = some c →
      isPySpace c = false) :=
  spec_C9 envW "u" "  hello \n world  foo ".data
    ⟨"u", "hello world foo".data, 15⟩ rfl (by decide)

theorem spec_C10_witness :
    ∃ out, chat envW modelSilent "hi" = .ok out ∧
      out.ret.content = (modelSilent 0).content ∧
      ((modelSilent 0).content = none → out.ret.content = none) ∧
      (∀ str, (modelSilent 0).content = some str →
        out.ret.content = some str) :=
  (spec_C10 envW modelSilent "hi").1 0 (by decide) (by decide) rfl

end Agent
